import Mathlib

set_option maxHeartbeats 1000000

namespace Koggi

/-! Shallow embedding of the koggi repository's binary-resolution and
backup-selection core (`koggi/binaries.py`, `koggi/ui/backup_selector.py`,
`koggi/database/restore.py`).  Filesystem and process state are modelled
explicitly: an environment record carries the observable results of
`os.environ.get`, `Path.exists`, `shutil.which`, `sys.platform` and
`platform.machine`; directories carry their `iterdir()` listing, and each
entry carries the result of `stat()` (`none` models a raised `OSError`
or `ValueError`). -/

/-- Embedding of Python `str.lower()` (per-character lowercasing, as the
source applies it to ASCII architecture names, suffixes and keys). -/
def pyLower (s : String) : String := ⟨s.data.map Char.toLower⟩

/-- Embedding of Python `str.upper()`. -/
def pyUpper (s : String) : String := ⟨s.data.map Char.toUpper⟩

/-- Embedding of Python `pathlib.PurePath.suffix` applied to a file name:
the substring from the last dot on, provided that dot is neither the first
nor the last character; otherwise the empty string. -/
def pySuffix (name : String) : String :=
  let cs := name.data
  let n := cs.length
  let after := (cs.reverse.takeWhile (fun c => c != '.')).reverse
  if ('.' ∈ cs) then
    let i := n - after.length - 1
    if 0 < i ∧ i < n - 1 then ⟨'.' :: after⟩ else ""
  else ""

/-! ### binaries.py -/

/-- The `PlatformInfo` dataclass from `koggi/binaries.py`. -/
structure PlatformInfo where
  os_name : String
  arch : String
deriving DecidableEq

/-- The `PlatformInfo.tag` property. -/
def PlatformInfo.tag (i : PlatformInfo) : String := i.os_name ++ "-" ++ i.arch

/-- The `PlatformInfo.exe_suffix` property. -/
def PlatformInfo.exe_suffix (i : PlatformInfo) : String :=
  if i.os_name = "windows" then ".exe" else ""

/-- Function `_normalize_arch` from `koggi/binaries.py`. -/
def _normalize_arch (raw : String) : String :=
  let r := pyLower raw
  if r = "x86_64" ∨ r = "amd64" ∨ r = "x64" then "x86_64"
  else if r = "aarch64" ∨ r = "arm64" then "arm64"
  else if r = "armv7l" ∨ r = "armv7" then "armv7"
  else r

/-- The ambient process state consulted by the resolver: environment
variables, filesystem existence, `shutil.which`, the host platform
identifiers, the package data root (`importlib.resources.files("koggi")`)
and the home directory. -/
structure ResolveEnv where
  getEnv : String → Option String
  pathExists : String → Bool
  which : String → Option String
  sysPlatform : String
  machine : String
  pkgRoot : String
  homeDir : String

/-- Embedding of Python `str.startswith`. -/
def pyStartsWith (s pre : String) : Bool := pre.data.isPrefixOf s.data

/-- Function `detect_platform` from `koggi/binaries.py`. -/
def detect_platform (env : ResolveEnv) : PlatformInfo :=
  let os_name :=
    if pyStartsWith env.sysPlatform ("win") then "windows"
    else if pyStartsWith env.sysPlatform ("darwin") then "darwin"
    else if pyStartsWith env.sysPlatform ("linux") then "linux"
    else env.sysPlatform
  ⟨os_name, _normalize_arch env.machine⟩

/-- Function `_env_override` from `koggi/binaries.py`: the variable's value is
returned when it is set, non-empty (Python truthiness of `val`) and names
an existing path. -/
def _env_override (env : ResolveEnv) (var : String) : Option String :=
  match env.getEnv var with
  | some val => if val ≠ "" then (if env.pathExists val then some val else none) else none
  | none => none

/-- Function `_embedded_dir` from `koggi/binaries.py`: `<pkgRoot>/_bin/<tag>`. -/
def _embedded_dir (env : ResolveEnv) : String :=
  env.pkgRoot ++ "/_bin/" ++ (detect_platform env).tag

/-- The OS-conventional cache root computed inside `_user_cache_dir`:
`LOCALAPPDATA` (default `~/AppData/Local`) on Windows, else
`XDG_CACHE_HOME` (default `~/.cache`). -/
def osCacheRoot (env : ResolveEnv) : String :=
  if (detect_platform env).os_name = "windows" then
    match env.getEnv ("LOCALAPPDATA") with
    | some v => v
    | none => env.homeDir ++ "/AppData/Local"
  else
    match env.getEnv ("XDG_CACHE_HOME") with
    | some v => v
    | none => env.homeDir ++ "/.cache"

/-- Function `_user_cache_dir` from `koggi/binaries.py`.  When `KOGGI_CACHE_DIR` is
set and non-empty the function returns it directly (`return Path(base)`);
only the OS-default branch appends `koggi/bin/<tag>`. -/
def _user_cache_dir (env : ResolveEnv) : String :=
  match env.getEnv ("KOGGI_CACHE_DIR") with
  | some base =>
    if base ≠ "" then base
    else osCacheRoot env ++ "/koggi/bin/" ++ (detect_platform env).tag
  | none => osCacheRoot env ++ "/koggi/bin/" ++ (detect_platform env).tag

/-- The `env_map` dictionary inside `_lookup_binary`. -/
def env_map (name : String) : Option String :=
  if name = "pg_dump" then some ("KOGGI_PG_DUMP")
  else if name = "psql" then some ("KOGGI_PSQL")
  else if name = "pg_restore" then some ("KOGGI_PG_RESTORE")
  else none

/-- Function `_lookup_binary` from `koggi/binaries.py`: environment override, then
embedded directory, then user cache directory, then system PATH. -/
def _lookup_binary (env : ResolveEnv) (name : String) : Option String :=
  let info := detect_platform env
  let exe := name ++ info.exe_suffix
  let fromEnv : Option String :=
    match env_map name with
    | some var => _env_override env var
    | none => none
  match fromEnv with
  | some p => some p
  | none =>
    let cand := _embedded_dir env ++ "/" ++ exe
    if env.pathExists cand then some cand
    else
      let cand2 := _user_cache_dir env ++ "/" ++ exe
      if env.pathExists cand2 then some cand2
      else env.which name

/-- Function `_require` from `koggi/binaries.py`.  `Except.error` carries the
`KoggiError` remediation hint (the `chmod` side effect of
`_ensure_executable` has no observable value and is dropped). -/
def _require (env : ResolveEnv) (name : String) : Except String String :=
  match _lookup_binary env name with
  | some p => Except.ok p
  | none =>
    let info := detect_platform env
    Except.error
      ("No '" ++ name ++ "' found. Provide embedded binaries in '" ++
        ("koggi/_bin/" ++ info.tag ++ "/") ++ "' or place them in '" ++
        _user_cache_dir env ++ "', or set env var " ++
        ("KOGGI_" ++ pyUpper name) ++ ".")

/-! Analysis helpers for the resolution claims (not part of the source). -/

/-- First non-`none` element of a list of optional results. -/
def firstSome : List (Option String) → Option String
  | [] => none
  | none :: rest => firstSome rest
  | some x :: _ => some x

/-- The four resolution sources of `_lookup_binary`, in priority order,
each as the path it would contribute (or `none` when it does not contain
the tool). -/
def lookupSources (env : ResolveEnv) (name : String) : List (Option String) :=
  let info := detect_platform env
  let exe := name ++ info.exe_suffix
  [ (match env_map name with
     | some var => _env_override env var
     | none => none),
    (let cand := _embedded_dir env ++ "/" ++ exe
     if env.pathExists cand then some cand else none),
    (let cand2 := _user_cache_dir env ++ "/" ++ exe
     if env.pathExists cand2 then some cand2 else none),
    env.which name ]

/-- Modelled from the spec (claim C1's wording): the cache root is
`KOGGI_CACHE_DIR` when set, else the OS-conventional cache root, and the
cache candidate is always `<cacheRoot>/koggi/bin/<platformTag>/<exe>`. -/
def claimedCacheDir (env : ResolveEnv) : String :=
  let root :=
    match env.getEnv ("KOGGI_CACHE_DIR") with
    | some base => if base ≠ "" then base else osCacheRoot env
    | none => osCacheRoot env
  root ++ "/koggi/bin/" ++ (detect_platform env).tag

/-- Modelled from the spec (claim C1's wording): resolution as the claim
states it, with the cache source at
`<cacheRoot>/koggi/bin/<platformTag>/<toolName><exeSuffix>`. -/
def resolveClaimed (env : ResolveEnv) (name : String) : Option String :=
  let info := detect_platform env
  let exe := name ++ info.exe_suffix
  firstSome
    [ (match env_map name with
       | some var => _env_override env var
       | none => none),
      (let cand := _embedded_dir env ++ "/" ++ exe
       if env.pathExists cand then some cand else none),
      (let cand2 := claimedCacheDir env ++ "/" ++ exe
       if env.pathExists cand2 then some cand2 else none),
      env.which name ]

/-- Concrete environment refuting claim C1's cache-path formula:
`KOGGI_CACHE_DIR=/c`, the only existing path is `/c/pg_dump`, nothing on
PATH. -/
def envC : ResolveEnv where
  getEnv := fun v => if v = "KOGGI_CACHE_DIR" then some ("/c") else none
  pathExists := fun p => p == "/c/pg_dump"
  which := fun _ => none
  sysPlatform := "linux"
  machine := "x86_64"
  pkgRoot := "/pkg"
  homeDir := "/home/u"

/-- A string contains a pattern. -/
def strContains (s pat : String) : Prop := ∃ a b, s = a ++ (pat ++ b)

/-! ### ui/backup_selector.py and database/restore.py -/

/-- One `iterdir()` entry of a backup directory: its (base) name, whether
`is_file()` holds, and the `stat()` outcome — `some (st_mtime, st_size)`,
or `none` when `stat()` raises. -/
structure FileEntry where
  name : String
  isFile : Bool
  stat : Option (Nat × Nat)
deriving DecidableEq

/-- A directory as observed by the code: whether it exists and its
`iterdir()` listing in enumeration order. -/
structure Directory where
  dirExists : Bool
  entries : List FileEntry

/-- The extension set `{".sql", ".backup", ".dump"}`. -/
def backupSuffixes : List String := [".sql", ".backup", ".dump"]

/-- The candidate test shared verbatim by `get_backup_files` and
`_pick_latest_backup`: `is_file()` and lowercased suffix in the set. -/
def isBackupFile (e : FileEntry) : Bool :=
  e.isFile && backupSuffixes.contains (pyLower (pySuffix e.name))

/-- The comparator realising `backup_files.sort(key=lambda x: x[1],
reverse=True)`: a stable descending sort on the modification time. -/
def newerFirst (x y : String × Nat × Nat) : Bool := decide (y.2.1 ≤ x.2.1)

/-- Function `get_backup_files` from `koggi/ui/backup_selector.py`: empty for a
missing directory; direct children passing `isBackupFile` whose `stat()`
succeeds, as `(path, modified_time, size)` triples; stably sorted newest
first. -/
def get_backup_files (d : Directory) : List (String × Nat × Nat) :=
  if !d.dirExists then []
  else
    let backup_files := d.entries.filterMap (fun e =>
      if isBackupFile e then
        match e.stat with
        | some s => some (e.name, s.1, s.2)
        | none => none
      else none)
    backup_files.mergeSort newerFirst

/-- Function `quick_latest_selector` from `koggi/ui/backup_selector.py`. -/
def quick_latest_selector (d : Directory) : Option String :=
  match get_backup_files d with
  | [] => none
  | x :: _ => some x.1

/-- The fold realising Python's `max(candidates, key=lambda p:
p.stat().st_mtime)`: keeps the current maximum, replacing it only on a
strictly greater key; `none` models `stat()` raising on some candidate. -/
def maxByMtimeGo (cur : FileEntry) (curKey : Nat) : List FileEntry → Option FileEntry
  | [] => some cur
  | e :: rest =>
    match e.stat with
    | none => none
    | some s =>
      if curKey < s.1 then maxByMtimeGo e s.1 rest else maxByMtimeGo cur curKey rest

/-- Python `max(candidates, key=...)` over a candidate list. -/
def maxByMtime : List FileEntry → Option FileEntry
  | [] => none
  | e :: rest =>
    match e.stat with
    | none => none
    | some s => maxByMtimeGo e s.1 rest

/-- Function `_pick_latest_backup` from `koggi/database/restore.py`.  `Except.error`
models the uncaught exception raised when a candidate cannot be
`stat()`-ed. -/
def _pick_latest_backup (d : Directory) : Except Unit (Option String) :=
  if !d.dirExists then Except.ok none
  else
    let candidates := d.entries.filter isBackupFile
    if candidates.isEmpty then Except.ok none
    else
      match maxByMtime candidates with
      | some e => Except.ok (some e.name)
      | none => Except.error ()

/-- Value `total_pages` as computed in `interactive_backup_selector` and
`display_backup_page`: `(len(backup_files) + page_size - 1) //
page_size`. -/
def total_pages (numFiles page_size : Nat) : Nat :=
  (numFiles + page_size - 1) / page_size

/-- One keystroke event: a character delivered by `get_single_keypress`,
or a `KeyboardInterrupt`/`EOFError` raised during input. -/
inductive KeyEvent where
  | key (c : Char)
  | interrupt
deriving DecidableEq

/-- Outcome of one iteration of the `while True` loop in
`interactive_backup_selector`: keep browsing on a page (with or without a
notice printed), return a selected index, or return `None`
(cancelled). -/
inductive StepResult where
  | browse (page : Nat) (notice : Bool)
  | selected (idx : Nat)
  | cancelled
deriving DecidableEq

/-- One iteration of the keystroke dispatch in
`interactive_backup_selector` (Python `int` arithmetic is carried out in
`Int`). -/
def selector_step (numFiles page_size current_page : Nat) (ev : KeyEvent) : StepResult :=
  match ev with
  | KeyEvent.interrupt => StepResult.cancelled
  | KeyEvent.key c =>
    if c = 'q' then StepResult.cancelled
    else if c = 'n' then
      if (current_page : Int) < (total_pages numFiles page_size : Int) - 1 then
        StepResult.browse (current_page + 1) false
      else StepResult.browse current_page true
    else if c = 'p' then
      if 0 < current_page then StepResult.browse (current_page - 1) false
      else StepResult.browse current_page true
    else if c = 'h' then StepResult.browse current_page false
    else if c.isDigit then
      let choice := c.toNat - 48
      let start_idx := current_page * page_size
      if 1 ≤ (choice : Int) ∧
          (choice : Int) ≤ min (page_size : Int) ((numFiles : Int) - (start_idx : Int)) then
        StepResult.selected (start_idx + choice - 1)
      else StepResult.browse current_page true
    else StepResult.browse current_page true

/-- The initial page of `interactive_backup_selector`. -/
def initial_page : Nat := 0

/-- Analysis helper: the first element of the list attaining the maximal
key (`none` on the empty list). -/
def firstMaxBy (key : α → Nat) : List α → Option α
  | [] => none
  | x :: xs =>
    match firstMaxBy key xs with
    | none => some x
    | some y => if key x < key y then some y else some x

/-- Analysis helper: the modification-time key of an entry whose `stat()`
succeeded. -/
def entryKey (e : FileEntry) : Nat := (e.stat.getD (0, 0)).1

/-- Analysis helper: the `(path, mtime, size)` triple of an entry whose
`stat()` succeeded. -/
def entryTriple (e : FileEntry) : String × Nat × Nat :=
  (e.name, (e.stat.getD (0, 0)).1, (e.stat.getD (0, 0)).2)

/-- The example directory of claim C2: `a.sql` (oldest), `b.dump`
(middle), `c.backup` (newest), `d.txt` (ignored). -/
def exampleDir : Directory where
  dirExists := true
  entries :=
    [ ⟨"a.sql", true, some (1, 10)⟩,
      ⟨"b.dump", true, some (2, 20)⟩,
      ⟨"c.backup", true, some (3, 30)⟩,
      ⟨"d.txt", true, some (4, 40)⟩ ]

/-- A concrete environment in which every resolution source fails. -/
def envN : ResolveEnv where
  getEnv := fun _ => none
  pathExists := fun _ => false
  which := fun _ => none
  sysPlatform := "linux"
  machine := "x86_64"
  pkgRoot := "/pkg"
  homeDir := "/home/u"

/-- Analysis helper: one accumulation step of a first-maximum scan. -/
def stepMax (key : α → Nat) (cur : α) : Option α → α
  | none => cur
  | some y => if key cur < key y then y else cur

/-- A directory with a modification-time tie (`y.dump` and `z.backup`
share the maximal time; `y.dump` enumerates first). -/
def tieDir : Directory where
  dirExists := true
  entries :=
    [ ⟨"x.sql", true, some (5, 1)⟩,
      ⟨"y.dump", true, some (7, 2)⟩,
      ⟨"z.backup", true, some (7, 3)⟩ ]

/-! ## Theorems -/

theorem char_toLower_toLower (c : Char) : c.toLower.toLower = c.toLower := by
  simp only [Char.toLower]
  by_cases h : c.toNat ≥ 65 ∧ c.toNat ≤ 90
  · rw [if_pos h]
    have hv : Nat.isValidChar (c.toNat + 32) := Or.inl (by omega)
    have ht : (Char.ofNat (c.toNat + 32)).toNat = c.toNat + 32 := by
      rw [Char.ofNat, dif_pos hv]; rfl
    rw [ht, if_neg (by omega)]
  · rw [if_neg h, if_neg h]

theorem pyLower_pyLower (s : String) : pyLower (pyLower s) = pyLower s := by
  simp only [pyLower, List.map_map]
  exact congrArg String.mk (List.map_congr_left (fun c _ => char_toLower_toLower c))

/-- Claim C5: `_normalize_arch` is total and idempotent, maps each alias
set to its canonical form, and passes any other input through lowercased
unchanged. -/
theorem normalize_arch_idempotent_and_aliases :
    (∀ x, _normalize_arch (_normalize_arch x) = _normalize_arch x) ∧
    (_normalize_arch ("x86_64") = "x86_64" ∧ _normalize_arch ("amd64") = "x86_64" ∧
      _normalize_arch ("x64") = "x86_64" ∧ _normalize_arch ("aarch64") = "arm64" ∧
      _normalize_arch ("arm64") = "arm64" ∧ _normalize_arch ("armv7l") = "armv7" ∧
      _normalize_arch ("armv7") = "armv7") ∧
    (∀ x, pyLower x ∉ (["x86_64", "amd64", "x64", "aarch64", "arm64", "armv7l", "armv7"] : List String) →
      _normalize_arch x = pyLower x) := by
  refine ⟨?_, by decide, ?_⟩
  · intro x
    unfold _normalize_arch
    by_cases h1 : pyLower x = "x86_64" ∨ pyLower x = "amd64" ∨ pyLower x = "x64"
    · rw [if_pos h1]; decide
    · rw [if_neg h1]
      by_cases h2 : pyLower x = "aarch64" ∨ pyLower x = "arm64"
      · rw [if_pos h2]; decide
      · rw [if_neg h2]
        by_cases h3 : pyLower x = "armv7l" ∨ pyLower x = "armv7"
        · rw [if_pos h3]; decide
        · rw [if_neg h3, pyLower_pyLower, if_neg h1, if_neg h2, if_neg h3]
  · intro x hx
    simp only [List.mem_cons, List.not_mem_nil, or_false] at hx
    push_neg at hx
    obtain ⟨e1, e2, e3, e4, e5, e6, e7⟩ := hx
    unfold _normalize_arch
    rw [if_neg (by tauto), if_neg (by tauto), if_neg (by tauto)]

/-- Claim C5 witness: the passthrough case evaluated at a concrete
non-alias input. -/
theorem normalize_arch_witness :
    ("mips" : String) ∉ (["x86_64", "amd64", "x64", "aarch64", "arm64", "armv7l", "armv7"] : List String) ∧
      _normalize_arch ("MIPS") = "mips" := by
  refine ⟨by decide, ?_⟩
  have h := normalize_arch_idempotent_and_aliases.2.2 ("MIPS") (by decide)
  simpa using h

theorem firstSome_eq_none_iff (l : List (Option String)) :
    firstSome l = none ↔ ∀ s ∈ l, s = none := by
  induction l with
  | nil => simp [firstSome]
  | cons x rest ih =>
    cases x with
    | none => simp [firstSome, ih]
    | some p => simp [firstSome]

theorem lookup_eq_firstSome (env : ResolveEnv) (name : String) :
    _lookup_binary env name = firstSome (lookupSources env name) := by
  unfold _lookup_binary lookupSources
  rcases hm : env_map name with _ | var
  · simp only [hm]
    split_ifs <;> rcases env.which name with _ | w <;> simp [firstSome]
  · simp only [hm]
    rcases ho : _env_override env var with _ | p
    · simp only [ho]
      split_ifs <;> rcases env.which name with _ | w <;> simp [firstSome]
    · simp only [ho, firstSome]

/-- Claim C1 counterexample: with `KOGGI_CACHE_DIR=/c` set and `pg_dump`
present directly at `/c/pg_dump` (and nowhere else), the code resolves it
from the cache source, while resolution as the claim states it — cache
candidate `<cacheRoot>/koggi/bin/<platformTag>/pg_dump` — reports
NotFound. -/
theorem resolution_claim_counterexample :
    _lookup_binary envC ("pg_dump") = some ("/c/pg_dump") ∧
      resolveClaimed envC ("pg_dump") = none ∧
      _lookup_binary envC ("pg_dump") ≠ resolveClaimed envC ("pg_dump") :=
  ⟨rfl, rfl, by decide⟩

/-- Claim C1 (amended): `_lookup_binary` returns the first of the four
sources — (1) environment override naming an existing path, (2) embedded
directory `<pkgRoot>/_bin/<platformTag>/<tool><exeSuffix>`, (3) the user
cache directory, which is `KOGGI_CACHE_DIR` itself when that variable is
set and non-empty and `<osCacheRoot>/koggi/bin/<platformTag>` otherwise,
(4) system PATH — that contains the tool, with no merging across sources;
when no source contains it, resolution reports `none`. -/
theorem resolution_priority_order :
    ∀ env name,
      _lookup_binary env name = firstSome (lookupSources env name) ∧
      ((∀ s ∈ lookupSources env name, s = none) → _lookup_binary env name = none) := by
  intro env name
  refine ⟨lookup_eq_firstSome env name, fun h => ?_⟩
  rw [lookup_eq_firstSome env name]
  exact (firstSome_eq_none_iff _).mpr h

/-- Claim C1 witness: priority resolution evaluated in an environment
where every source fails. -/
theorem resolution_priority_order_witness :
    _lookup_binary envN ("pg_dump") = none :=
  (resolution_priority_order envN ("pg_dump")).2 (by decide)

/-- Claim C6: `_require` reports an error exactly when all four resolution
sources fail, and the error hint names the embedded directory
`koggi/_bin/<platformTag>/`, the user cache directory, and the per-tool
environment variable `KOGGI_` followed by the uppercased tool name. -/
theorem resolver_error_carries_hint :
    ∀ env name,
      ((∃ e, _require env name = Except.error e) ↔
        (∀ s ∈ lookupSources env name, s = none)) ∧
      (∀ e, _require env name = Except.error e →
        strContains e ("koggi/_bin/" ++ (detect_platform env).tag ++ "/") ∧
        strContains e (_user_cache_dir env) ∧
        strContains e ("KOGGI_" ++ pyUpper name)) := by
  intro env name
  have hiff : _lookup_binary env name = none ↔ ∀ s ∈ lookupSources env name, s = none := by
    rw [lookup_eq_firstSome env name]
    exact firstSome_eq_none_iff _
  constructor
  · rw [← hiff]
    unfold _require
    rcases hl : _lookup_binary env name with _ | p <;> simp [hl]
  · intro e he
    unfold _require at he
    rcases hl : _lookup_binary env name with _ | p
    · rw [hl] at he
      simp only [Except.error.injEq] at he
      subst he
      refine ⟨?_, ?_, ?_⟩
      · exact ⟨"No '" ++ name ++ "' found. Provide embedded binaries in '",
          "' or place them in '" ++ _user_cache_dir env ++ "', or set env var " ++
            ("KOGGI_" ++ pyUpper name) ++ ".",
          by simp only [String.append_assoc]⟩
      · exact ⟨"No '" ++ name ++ "' found. Provide embedded binaries in '" ++
            ("koggi/_bin/" ++ (detect_platform env).tag ++ "/") ++ "' or place them in '",
          "', or set env var " ++ ("KOGGI_" ++ pyUpper name) ++ ".",
          by simp only [String.append_assoc]⟩
      · exact ⟨"No '" ++ name ++ "' found. Provide embedded binaries in '" ++
            ("koggi/_bin/" ++ (detect_platform env).tag ++ "/") ++ "' or place them in '" ++
            _user_cache_dir env ++ "', or set env var ",
          ".", by simp only [String.append_assoc]⟩
    · rw [hl] at he
      exact absurd he (by simp)

/-- Claim C6 witness: the error, its hint, and the three named locations,
evaluated in a concrete environment where every source fails. -/
theorem resolver_error_witness :
    strContains
        ("No '" ++ "pg_dump" ++ "' found. Provide embedded binaries in '" ++
          ("koggi/_bin/" ++ (detect_platform envN).tag ++ "/") ++ "' or place them in '" ++
          _user_cache_dir envN ++ "', or set env var " ++
          ("KOGGI_" ++ pyUpper ("pg_dump")) ++ ".")
        ("koggi/_bin/" ++ (detect_platform envN).tag ++ "/") ∧
      strContains
        ("No '" ++ "pg_dump" ++ "' found. Provide embedded binaries in '" ++
          ("koggi/_bin/" ++ (detect_platform envN).tag ++ "/") ++ "' or place them in '" ++
          _user_cache_dir envN ++ "', or set env var " ++
          ("KOGGI_" ++ pyUpper ("pg_dump")) ++ ".")
        (_user_cache_dir envN) :=
  let h := (resolver_error_carries_hint envN ("pg_dump")).2 _ rfl
  ⟨h.1, h.2.1⟩

theorem digit_cond_iff (nf ps start choice : Nat) :
    (1 ≤ (choice : Int) ∧ (choice : Int) ≤ min (ps : Int) ((nf : Int) - (start : Int))) ↔
      (1 ≤ choice ∧ choice ≤ min ps (nf - start)) := by
  omega

theorem selector_step_digit (nf ps page : Nat) (c : Char) (hd : c.isDigit = true) :
    selector_step nf ps page (KeyEvent.key c) =
      (if 1 ≤ ((c.toNat - 48 : Nat) : Int) ∧
          ((c.toNat - 48 : Nat) : Int) ≤ min (ps : Int) ((nf : Int) - ((page * ps : Nat) : Int))
        then StepResult.selected (page * ps + (c.toNat - 48) - 1)
        else StepResult.browse page true) := by
  have hq : ¬c = 'q' := by intro h; subst h; exact absurd hd (by decide)
  have hn : ¬c = 'n' := by intro h; subst h; exact absurd hd (by decide)
  have hp : ¬c = 'p' := by intro h; subst h; exact absurd hd (by decide)
  have hh : ¬c = 'h' := by intro h; subst h; exact absurd hd (by decide)
  simp only [selector_step, if_neg hq, if_neg hn, if_neg hp, if_neg hh, hd, if_true]

/-- Claim C3: `totalPages` is the ceiling of `totalFiles / pageSize` (with
its least-bound characterisation), a digit keystroke selects index
`page * pageSize + d - 1` exactly when `d` lies within the count of files
shown on the page and otherwise is a no-op with a notice; with
`pageSize = 2` and 5 files, `totalPages = 3` and digit `2` on page 1
selects index 3. -/
theorem pagination_and_digit_selection :
    (∀ nf ps, total_pages nf ps = nf ⌈/⌉ ps) ∧
    (∀ nf ps k, 0 < ps → (total_pages nf ps ≤ k ↔ nf ≤ ps * k)) ∧
    (∀ nf ps page (c : Char), c.isDigit = true →
      ((1 ≤ c.toNat - 48 ∧ c.toNat - 48 ≤ min ps (nf - page * ps)) →
        selector_step nf ps page (KeyEvent.key c) =
          StepResult.selected (page * ps + (c.toNat - 48) - 1)) ∧
      (¬(1 ≤ c.toNat - 48 ∧ c.toNat - 48 ≤ min ps (nf - page * ps)) →
        selector_step nf ps page (KeyEvent.key c) = StepResult.browse page true)) ∧
    (total_pages 5 2 = 3 ∧ selector_step 5 2 1 (KeyEvent.key ('2')) = StepResult.selected 3) := by
  refine ⟨fun nf ps => (Nat.ceilDiv_eq_add_pred_div nf ps).symm, ?_, ?_, by decide, by decide⟩
  · intro nf ps k hps
    rw [show total_pages nf ps = nf ⌈/⌉ ps from rfl, ceilDiv_le_iff_le_smul hps, smul_eq_mul]
  · intro nf ps page c hd
    constructor
    · intro hcond
      rw [selector_step_digit nf ps page c hd,
        if_pos ((digit_cond_iff nf ps (page * ps) (c.toNat - 48)).mpr hcond)]
    · intro hcond
      rw [selector_step_digit nf ps page c hd,
        if_neg (fun hint => hcond ((digit_cond_iff nf ps (page * ps) (c.toNat - 48)).mp hint))]

/-- Claim C3 witness: digit `2` on page index 1 with 5 files and page
size 2. -/
theorem pagination_witness :
    selector_step 5 2 1 (KeyEvent.key ('2')) = StepResult.selected (1 * 2 + (('2').toNat - 48) - 1) :=
  (pagination_and_digit_selection.2.2.1 5 2 1 ('2') (by decide)).1 (by decide)

/-- Claim C7: `n` on the last page and `p` on the first page are no-ops
with a notice; otherwise `n` advances and `p` retreats by one page. -/
theorem nav_page_boundaries :
    ∀ nf ps page,
      (page = total_pages nf ps - 1 →
        selector_step nf ps page (KeyEvent.key ('n')) = StepResult.browse page true) ∧
      (page < total_pages nf ps - 1 →
        selector_step nf ps page (KeyEvent.key ('n')) = StepResult.browse (page + 1) false) ∧
      (page = 0 → selector_step nf ps page (KeyEvent.key ('p')) = StepResult.browse page true) ∧
      (0 < page → selector_step nf ps page (KeyEvent.key ('p')) = StepResult.browse (page - 1) false) := by
  intro nf ps page
  have hstepn : selector_step nf ps page (KeyEvent.key ('n')) =
      (if (page : Int) < (total_pages nf ps : Int) - 1 then StepResult.browse (page + 1) false
        else StepResult.browse page true) := by
    simp [selector_step]
  have hstepp : selector_step nf ps page (KeyEvent.key ('p')) =
      (if 0 < page then StepResult.browse (page - 1) false
        else StepResult.browse page true) := by
    simp [selector_step]
  refine ⟨fun h => ?_, fun h => ?_, fun h => ?_, fun h => ?_⟩
  · rw [hstepn, if_neg (by omega)]
  · rw [hstepn, if_pos (by omega)]
  · rw [hstepp, if_neg (by omega)]
  · rw [hstepp, if_pos h]

/-- Claim C7 witness: boundary and interior navigation evaluated with 5
files and page size 2 (pages 0–2). -/
theorem nav_page_boundaries_witness :
    selector_step 5 2 2 (KeyEvent.key ('n')) = StepResult.browse 2 true ∧
      selector_step 5 2 1 (KeyEvent.key ('n')) = StepResult.browse 2 false ∧
      selector_step 5 2 0 (KeyEvent.key ('p')) = StepResult.browse 0 true ∧
      selector_step 5 2 1 (KeyEvent.key ('p')) = StepResult.browse 0 false :=
  ⟨(nav_page_boundaries 5 2 2).1 (by decide),
    (nav_page_boundaries 5 2 1).2.1 (by decide),
    (nav_page_boundaries 5 2 0).2.2.1 rfl,
    (nav_page_boundaries 5 2 1).2.2.2 (by decide)⟩

/-- Claim C8: `q` cancels the selector from any browsing state regardless
of the current page, and an interruption during input produces the same
cancelled outcome. -/
theorem quit_or_interrupt_cancels :
    ∀ nf ps page,
      selector_step nf ps page (KeyEvent.key ('q')) = StepResult.cancelled ∧
      selector_step nf ps page KeyEvent.interrupt = StepResult.cancelled := by
  intro nf ps page
  exact ⟨rfl, rfl⟩

theorem browse_page_inj {a a' : Nat} {b b' : Bool}
    (h : StepResult.browse a b = StepResult.browse a' b') : a = a' := by
  cases h; rfl

theorem selected_idx_inj {i i' : Nat}
    (h : StepResult.selected i = StepResult.selected i') : i = i' := by
  cases h; rfl

/-- Claim C10: with a non-empty listing, the initial page index and every
page index produced by a keystroke transition stay within
`0 ≤ page ≤ totalPages - 1`; the displayed page is never empty
(`page * pageSize < numFiles`), and every selected index lies within the
file list. -/
theorem page_index_invariant :
    ∀ nf ps page ev, 0 < nf → 0 < ps → page ≤ total_pages nf ps - 1 →
      (initial_page ≤ total_pages nf ps - 1) ∧
      page * ps < nf ∧
      (∀ page' notice, selector_step nf ps page ev = StepResult.browse page' notice →
        page' ≤ total_pages nf ps - 1) ∧
      (∀ idx, selector_step nf ps page ev = StepResult.selected idx → idx < nf) := by
  intro nf ps page ev hnf hps hpage
  have hT1 : 1 ≤ total_pages nf ps := by
    rw [show total_pages nf ps = (nf + ps - 1) / ps from rfl, Nat.le_div_iff_mul_le hps]
    omega
  have hmul : page * ps < nf := by
    have h2 : page + 1 ≤ total_pages nf ps := by omega
    rw [show total_pages nf ps = (nf + ps - 1) / ps from rfl, Nat.le_div_iff_mul_le hps,
      add_mul, one_mul] at h2
    have h3 : page * ps + ps ≤ nf + ps - 1 := h2
    omega
  refine ⟨Nat.zero_le _, hmul, ?_⟩
  rcases ev with c | _
  · by_cases hq : c = 'q'
    · subst hq
      refine ⟨fun page' notice hstep => ?_, fun idx hstep => ?_⟩ <;> simp [selector_step] at hstep
    · by_cases hn : c = 'n'
      · subst hn
        have hstepn : selector_step nf ps page (KeyEvent.key ('n')) =
            (if (page : Int) < (total_pages nf ps : Int) - 1 then StepResult.browse (page + 1) false
              else StepResult.browse page true) := by
          simp [selector_step]
        refine ⟨fun page' notice hstep => ?_, fun idx hstep => ?_⟩ <;> rw [hstepn] at hstep <;>
            by_cases h : (page : Int) < (total_pages nf ps : Int) - 1
        · rw [if_pos h] at hstep; have h1 := browse_page_inj hstep; omega
        · rw [if_neg h] at hstep; have h1 := browse_page_inj hstep; omega
        · rw [if_pos h] at hstep; exact absurd hstep (by simp)
        · rw [if_neg h] at hstep; exact absurd hstep (by simp)
      · by_cases hp : c = 'p'
        · subst hp
          have hstepp : selector_step nf ps page (KeyEvent.key ('p')) =
              (if 0 < page then StepResult.browse (page - 1) false
                else StepResult.browse page true) := by
            simp [selector_step]
          refine ⟨fun page' notice hstep => ?_, fun idx hstep => ?_⟩ <;> rw [hstepp] at hstep <;>
              by_cases h : 0 < page
          · rw [if_pos h] at hstep; have h1 := browse_page_inj hstep; omega
          · rw [if_neg h] at hstep; have h1 := browse_page_inj hstep; omega
          · rw [if_pos h] at hstep; exact absurd hstep (by simp)
          · rw [if_neg h] at hstep; exact absurd hstep (by simp)
        · by_cases hh : c = 'h'
          · subst hh
            have hsteph : selector_step nf ps page (KeyEvent.key ('h')) =
                StepResult.browse page false := by
              simp [selector_step]
            refine ⟨fun page' notice hstep => ?_, fun idx hstep => ?_⟩ <;> rw [hsteph] at hstep
            · have h1 := browse_page_inj hstep; omega
            · exact absurd hstep (by simp)
          · by_cases hd : c.isDigit
            · have hstepd := selector_step_digit nf ps page c hd
              refine ⟨fun page' notice hstep => ?_, fun idx hstep => ?_⟩ <;>
                rw [hstepd] at hstep <;>
                by_cases h : 1 ≤ ((c.toNat - 48 : Nat) : Int) ∧
                  ((c.toNat - 48 : Nat) : Int) ≤ min (ps : Int) ((nf : Int) - ((page * ps : Nat) : Int))
              · rw [if_pos h] at hstep; exact absurd hstep (by simp)
              · rw [if_neg h] at hstep; have h1 := browse_page_inj hstep; omega
              · rw [if_pos h] at hstep
                have h1 := selected_idx_inj hstep
                obtain ⟨hc1, hc2⟩ := h
                omega
              · rw [if_neg h] at hstep; exact absurd hstep (by simp)
            · have hstepo : selector_step nf ps page (KeyEvent.key c) =
                  StepResult.browse page true := by
                simp [selector_step, hq, hn, hp, hh, hd]
              refine ⟨fun page' notice hstep => ?_, fun idx hstep => ?_⟩ <;> rw [hstepo] at hstep
              · have h1 := browse_page_inj hstep; omega
              · exact absurd hstep (by simp)
  · refine ⟨fun page' notice hstep => ?_, fun idx hstep => ?_⟩ <;>
      simp [selector_step] at hstep

/-- Claim C10 witness: the invariant transition evaluated at a concrete
in-bounds state (5 files, page size 2, page 1, key `n`). -/
theorem page_index_invariant_witness : (2 : Nat) ≤ total_pages 5 2 - 1 :=
  (page_index_invariant 5 2 1 (KeyEvent.key ('n')) (by decide) (by decide)
    (by decide)).2.2.1 2 false (by decide)

theorem get_backup_files_nonexistent (d : Directory) (h : d.dirExists = false) :
    get_backup_files d = [] := by
  simp [get_backup_files, h]

theorem newerFirst_trans :
    ∀ a b c : String × Nat × Nat, newerFirst a b → newerFirst b c → newerFirst a c := by
  intro a b c
  simp only [newerFirst, decide_eq_true_eq]
  omega

theorem newerFirst_total : ∀ a b : String × Nat × Nat, newerFirst a b || newerFirst b a := by
  intro a b
  simp only [newerFirst, Bool.or_eq_true, decide_eq_true_eq]
  omega

theorem filterMap_if_eq (p : α → Bool) (f : α → Option β) :
    ∀ l : List α, l.filterMap (fun e => if p e then f e else none) = (l.filter p).filterMap f := by
  intro l
  induction l with
  | nil => rfl
  | cons x xs ih =>
    by_cases hx : p x
    · rw [List.filter_cons_of_pos hx]
      cases hfx : f x <;> simp [List.filterMap_cons, hx, hfx, ih]
    · rw [List.filter_cons_of_neg hx]
      simp [List.filterMap_cons, hx, ih]

theorem filterMap_stat_eq_map :
    ∀ l : List FileEntry, (∀ e ∈ l, e.stat.isSome) →
      (l.filterMap fun e =>
        match e.stat with
        | some s => some (e.name, s.1, s.2)
        | none => none) = l.map entryTriple := by
  intro l
  induction l with
  | nil => intro _; rfl
  | cons e rest ih =>
    intro hall
    have he := hall e (List.mem_cons_self e rest)
    rcases hs : e.stat with _ | s
    · rw [hs] at he; simp at he
    · simp only [List.filterMap_cons, hs, List.map_cons]
      rw [ih (fun x hx => hall x (List.mem_cons_of_mem e hx))]
      congr 1
      simp [entryTriple, hs]

theorem get_backup_files_eq (d : Directory) (hex : d.dirExists = true)
    (hall : ∀ e ∈ d.entries.filter isBackupFile, e.stat.isSome) :
    get_backup_files d =
      ((d.entries.filter isBackupFile).map entryTriple).mergeSort newerFirst := by
  unfold get_backup_files
  rw [hex]
  simp only [Bool.not_true]
  rw [if_neg (by simp)]
  rw [filterMap_if_eq isBackupFile _ d.entries, filterMap_stat_eq_map _ hall]

theorem exampleDir_listing :
    get_backup_files exampleDir =
      [("c.backup", 3, 30), ("b.dump", 2, 20), ("a.sql", 1, 10)] := by
  show ([("a.sql", 1, 10), ("b.dump", 2, 20), ("c.backup", 3, 30)] :
      List (String × Nat × Nat)).mergeSort newerFirst = _
  simp [List.mergeSort, List.splitInTwo, List.merge, newerFirst]

/-- Claim C2: the backup listing is empty for a nonexistent directory,
contains only direct children that are files with a (case-insensitively)
backup extension and a successful `stat()`, is ordered by modification
time descending, and on the example directory yields exactly
`[c.backup, b.dump, a.sql]`. -/
theorem backup_listing_contract :
    ∀ d : Directory,
      (d.dirExists = false → get_backup_files d = []) ∧
      (∀ x ∈ get_backup_files d, ∃ e ∈ d.entries, e.isFile = true ∧
        pyLower (pySuffix e.name) ∈ backupSuffixes ∧
        e.stat = some (x.2.1, x.2.2) ∧ x.1 = e.name) ∧
      (get_backup_files d).Pairwise (fun a b => b.2.1 ≤ a.2.1) ∧
      get_backup_files exampleDir =
        [("c.backup", 3, 30), ("b.dump", 2, 20), ("a.sql", 1, 10)] := by
  intro d
  refine ⟨get_backup_files_nonexistent d, ?_, ?_, exampleDir_listing⟩
  · intro x hx
    by_cases hex : d.dirExists = true
    · unfold get_backup_files at hx
      rw [hex] at hx
      rw [if_neg (by simp)] at hx
      rw [List.mem_mergeSort] at hx
      obtain ⟨e, he, hfe⟩ := List.mem_filterMap.mp hx
      by_cases hb : isBackupFile e
      · rw [if_pos hb] at hfe
        rcases hs : e.stat with _ | s
        · rw [hs] at hfe; exact absurd hfe (by simp)
        · rw [hs] at hfe
          rw [isBackupFile, Bool.and_eq_true] at hb
          obtain ⟨hfile, hsuf⟩ := hb
          have hfe' : some (e.name, s.1, s.2) = some x := hfe
          injection hfe' with hfe''
          subst hfe''
          refine ⟨e, he, hfile, ?_, ?_, rfl⟩
          · simpa [List.contains] using hsuf
          · rw [hs]
      · rw [if_neg hb] at hfe
        exact absurd hfe (by simp)
    · rw [get_backup_files_nonexistent d (by simpa using hex)] at hx
      exact absurd hx (by simp)
  · by_cases hex : d.dirExists = true
    · unfold get_backup_files
      rw [hex]
      rw [if_neg (by simp)]
      refine List.Pairwise.imp ?_
        (List.sorted_mergeSort newerFirst_trans newerFirst_total _)
      intro a b hab
      simpa [newerFirst, decide_eq_true_eq] using hab
    · rw [get_backup_files_nonexistent d (by simpa using hex)]
      exact List.Pairwise.nil

/-- Claim C2 witness: the contract evaluated at a nonexistent directory. -/
theorem backup_listing_witness : get_backup_files ⟨false, []⟩ = [] :=
  (backup_listing_contract ⟨false, []⟩).1 rfl

/-- Claim C4: `quick_latest_selector` returns `none` on a nonexistent or
backup-free directory, and otherwise exactly the head (index 0) of the
full descending-by-modification-time listing, with no prompting. -/
theorem quick_latest_contract :
    ∀ d : Directory,
      (d.dirExists = false → quick_latest_selector d = none) ∧
      (get_backup_files d = [] → quick_latest_selector d = none) ∧
      (∀ x xs, get_backup_files d = x :: xs → quick_latest_selector d = some x.1) := by
  intro d
  refine ⟨fun h => ?_, fun h => ?_, fun x xs h => ?_⟩
  · unfold quick_latest_selector
    rw [get_backup_files_nonexistent d h]
  · unfold quick_latest_selector
    rw [h]
  · unfold quick_latest_selector
    rw [h]

/-- Claim C4 witness: the newest file of the example directory is the
head of its descending listing. -/
theorem quick_latest_witness : quick_latest_selector exampleDir = some ("c.backup") :=
  (quick_latest_contract exampleDir).2.2 ("c.backup", 3, 30)
    [("b.dump", 2, 20), ("a.sql", 1, 10)] exampleDir_listing

theorem firstMaxBy_cons (key : α → Nat) (x : α) (xs : List α) :
    firstMaxBy key (x :: xs) = some (stepMax key x (firstMaxBy key xs)) := by
  cases h : firstMaxBy key xs with
  | none => simp [firstMaxBy, h, stepMax]
  | some z =>
    simp only [firstMaxBy, h, stepMax]
    by_cases hk : key x < key z
    · simp [hk]
    · simp [hk]

theorem firstMaxBy_mem (key : α → Nat) :
    ∀ {l : List α} {y}, firstMaxBy key l = some y → y ∈ l := by
  intro l
  induction l with
  | nil => intro y h; simp [firstMaxBy] at h
  | cons x xs ih =>
    intro y h
    rw [firstMaxBy_cons] at h
    injection h with h
    subst h
    cases hx : firstMaxBy key xs with
    | none => simp [stepMax, hx]
    | some z =>
      simp only [stepMax, hx]
      by_cases hk : key x < key z
      · rw [if_pos hk]
        exact List.mem_cons_of_mem x (ih hx)
      · rw [if_neg hk]
        exact List.mem_cons_self x xs

theorem firstMaxBy_maximal (key : α → Nat) :
    ∀ {l : List α} {y}, firstMaxBy key l = some y → ∀ x ∈ l, key x ≤ key y := by
  intro l
  induction l with
  | nil => intro y h x hx; simp at hx
  | cons a xs ih =>
    intro y h x hx
    rw [firstMaxBy_cons] at h
    injection h with h
    subst h
    rcases List.mem_cons.mp hx with rfl | hx'
    · cases hr : firstMaxBy key xs with
      | none => simp [stepMax, hr]
      | some z =>
        simp only [stepMax, hr]
        by_cases hk : key x < key z
        · rw [if_pos hk]; omega
        · rw [if_neg hk]
    · cases hr : firstMaxBy key xs with
      | none =>
        cases xs with
        | nil => simp at hx'
        | cons b bs => rw [firstMaxBy_cons] at hr; exact absurd hr (by simp)
      | some z =>
        have hz := ih hr x hx'
        simp only [stepMax, hr]
        by_cases hk : key a < key z
        · rw [if_pos hk]; exact hz
        · rw [if_neg hk]; omega

theorem firstMaxBy_eq_filter_head (key : α → Nat) (M : Nat) :
    ∀ l : List α, (∀ z ∈ l, key z ≤ M) → (∃ z ∈ l, key z = M) →
      firstMaxBy key l = (l.filter (fun z => decide (key z = M))).head? := by
  intro l
  induction l with
  | nil => intro _ hex; simp at hex
  | cons x xs ih =>
    intro hle hex
    by_cases hx : key x = M
    · rw [List.filter_cons_of_pos (by simp [hx]), firstMaxBy_cons, List.head?_cons]
      cases hr : firstMaxBy key xs with
      | none => simp [stepMax]
      | some z =>
        have hz : key z ≤ M := hle z (List.mem_cons_of_mem x (firstMaxBy_mem key hr))
        simp only [stepMax]
        rw [if_neg (by omega)]
    · have hxlt : key x < M := by
        have := hle x (List.mem_cons_self x xs)
        omega
      rw [List.filter_cons_of_neg (by simp [hx])]
      have hex' : ∃ z ∈ xs, key z = M := by
        rcases hex with ⟨z, hz, hzM⟩
        rcases List.mem_cons.mp hz with rfl | hz'
        · exact absurd hzM hx
        · exact ⟨z, hz', hzM⟩
      have hle' : ∀ z ∈ xs, key z ≤ M := fun z hz => hle z (List.mem_cons_of_mem x hz)
      rw [firstMaxBy_cons, ← ih hle' hex']
      cases hr : firstMaxBy key xs with
      | none =>
        rcases hex' with ⟨z, hz, _⟩
        cases xs with
        | nil => simp at hz
        | cons b bs => rw [firstMaxBy_cons] at hr; exact absurd hr (by simp)
      | some y =>
        have hyM : key y = M := by
          have h1 : key y ≤ M := hle' y (firstMaxBy_mem key hr)
          rcases hex' with ⟨z, hz, hzM⟩
          have h2 := firstMaxBy_maximal key hr z hz
          omega
        simp only [stepMax]
        rw [if_pos (by omega)]

theorem head_mergeSort_eq_firstMaxBy (key : α → Nat) (l : List α) :
    (l.mergeSort (fun a b => decide (key b ≤ key a))).head? = firstMaxBy key l := by
  have htrans : ∀ a b c : α,
      (fun a b => decide (key b ≤ key a)) a b → (fun a b => decide (key b ≤ key a)) b c →
        (fun a b => decide (key b ≤ key a)) a c := by
    intro a b c
    simp only [decide_eq_true_eq]
    omega
  have htotal : ∀ a b : α,
      (fun a b => decide (key b ≤ key a)) a b || (fun a b => decide (key b ≤ key a)) b a := by
    intro a b
    simp only [Bool.or_eq_true, decide_eq_true_eq]
    omega
  cases hs : l.mergeSort (fun a b => decide (key b ≤ key a)) with
  | nil =>
    have hnil : l = [] := by
      have hp := List.mergeSort_perm l (fun a b => decide (key b ≤ key a))
      rw [hs] at hp
      exact List.nil_perm.mp hp
    subst hnil
    simp [firstMaxBy]
  | cons h t =>
    have hperm : (h :: t).Perm l := by
      have hp := List.mergeSort_perm l (fun a b => decide (key b ≤ key a))
      rwa [hs] at hp
    have hsort : (h :: t).Pairwise (fun a b => decide (key b ≤ key a) = true) := by
      have hw := List.sorted_mergeSort htrans htotal l
      rwa [hs] at hw
    have hmax : ∀ z ∈ l, key z ≤ key h := by
      intro z hz
      have hz' : z ∈ h :: t := hperm.mem_iff.mpr hz
      rcases List.mem_cons.mp hz' with rfl | hz''
      · exact Nat.le_refl _
      · have := List.rel_of_pairwise_cons hsort hz''
        simpa [decide_eq_true_eq] using this
    have hfilter_eq : l.filter (fun z => decide (key z = key h)) =
        (h :: t).filter (fun z => decide (key z = key h)) := by
      have hpair : (l.filter (fun z => decide (key z = key h))).Pairwise
          (fun a b => decide (key b ≤ key a) = true) := by
        apply List.pairwise_of_forall_mem_list
        intro a ha b hb
        have ha' := (List.mem_filter.mp ha).2
        have hb' := (List.mem_filter.mp hb).2
        simp only [decide_eq_true_eq] at ha' hb' ⊢
        omega
      have hsub : List.Sublist (l.filter (fun z => decide (key z = key h)))
          (l.mergeSort (fun a b => decide (key b ≤ key a))) :=
        List.sublist_mergeSort htrans htotal hpair (List.filter_sublist l)
      rw [hs] at hsub
      have hsub2 : List.Sublist (l.filter (fun z => decide (key z = key h)))
          ((h :: t).filter (fun z => decide (key z = key h))) := by
        have h1 := hsub.filter (fun z => decide (key z = key h))
        rwa [List.filter_eq_self.mpr (fun a ha => (List.mem_filter.mp ha).2)] at h1
      have hlen : (l.filter (fun z => decide (key z = key h))).length =
          ((h :: t).filter (fun z => decide (key z = key h))).length := by
        rw [← List.countP_eq_length_filter, ← List.countP_eq_length_filter]
        exact (hperm.countP_eq _).symm
      exact hsub2.eq_of_length hlen
    have hhead : ((h :: t).filter (fun z => decide (key z = key h))).head? = some h := by
      rw [List.filter_cons_of_pos (by simp)]
      rfl
    have hexM : ∃ z ∈ l, key z = key h :=
      ⟨h, hperm.mem_iff.mp (List.mem_cons_self h t), rfl⟩
    rw [firstMaxBy_eq_filter_head key (key h) l hmax hexM, hfilter_eq, hhead, List.head?_cons]

theorem head_mergeSort_newerFirst (l : List (String × Nat × Nat)) :
    (l.mergeSort newerFirst).head? = firstMaxBy (fun x : String × Nat × Nat => x.2.1) l :=
  head_mergeSort_eq_firstMaxBy (fun x : String × Nat × Nat => x.2.1) l

theorem stepMax_absorb (key : α → Nat) (cur e : α) (F : Option α) (h : key cur < key e) :
    stepMax key e F = stepMax key cur (some (stepMax key e F)) := by
  cases F with
  | none => simp only [stepMax]; rw [if_pos h]
  | some y =>
    simp only [stepMax]
    by_cases h2 : key e < key y
    · rw [if_pos h2, if_pos (by omega)]
    · rw [if_neg h2, if_pos h]

theorem stepMax_skip (key : α → Nat) (cur e : α) (F : Option α) (h : ¬key cur < key e) :
    stepMax key cur F = stepMax key cur (some (stepMax key e F)) := by
  cases F with
  | none => simp only [stepMax]; rw [if_neg h]
  | some y =>
    simp only [stepMax]
    by_cases h2 : key e < key y
    · rw [if_pos h2]
    · rw [if_neg h2, if_neg h, if_neg (by omega)]

theorem maxByMtimeGo_eq (cur : FileEntry) :
    ∀ rest : List FileEntry, (∀ e ∈ rest, e.stat.isSome) →
      maxByMtimeGo cur (entryKey cur) rest =
        some (stepMax entryKey cur (firstMaxBy entryKey rest)) := by
  intro rest
  induction rest generalizing cur with
  | nil => intro _; simp [maxByMtimeGo, firstMaxBy, stepMax]
  | cons e rest ih =>
    intro hall
    have he := hall e (List.mem_cons_self e rest)
    rcases hs : e.stat with _ | s
    · rw [hs] at he; simp at he
    · have hkey : entryKey e = s.1 := by simp [entryKey, hs]
      have hall' : ∀ x ∈ rest, x.stat.isSome :=
        fun x hx => hall x (List.mem_cons_of_mem e hx)
      simp only [maxByMtimeGo, hs]
      rw [firstMaxBy_cons]
      by_cases hc : entryKey cur < s.1
      · rw [if_pos hc, ← hkey, ih e hall']
        exact congrArg some (stepMax_absorb entryKey cur e _ (by omega))
      · rw [if_neg hc, ih cur hall']
        exact congrArg some (stepMax_skip entryKey cur e _ (by omega))

theorem maxByMtime_eq_firstMaxBy :
    ∀ l : List FileEntry, (∀ e ∈ l, e.stat.isSome) →
      maxByMtime l = firstMaxBy entryKey l := by
  intro l hall
  cases l with
  | nil => rfl
  | cons e rest =>
    have he := hall e (List.mem_cons_self e rest)
    rcases hs : e.stat with _ | s
    · rw [hs] at he; simp at he
    · have hkey : entryKey e = s.1 := by simp [entryKey, hs]
      simp only [maxByMtime, hs]
      rw [← hkey, maxByMtimeGo_eq e rest (fun x hx => hall x (List.mem_cons_of_mem e hx)),
        firstMaxBy_cons]

theorem firstMaxBy_map (key1 : α → Nat) (key2 : β → Nat) (f : α → β)
    (hf : ∀ a, key2 (f a) = key1 a) :
    ∀ l : List α, firstMaxBy key2 (l.map f) = (firstMaxBy key1 l).map f := by
  intro l
  induction l with
  | nil => rfl
  | cons x xs ih =>
    rw [List.map_cons, firstMaxBy_cons, firstMaxBy_cons, ih]
    cases hF : firstMaxBy key1 xs with
    | none => simp [stepMax]
    | some y =>
      simp only [Option.map_some', stepMax, hf]
      by_cases hk : key1 x < key1 y
      · rw [if_pos hk, if_pos hk]
      · rw [if_neg hk, if_neg hk]

/-- Claim C9: whenever every backup candidate in a directory can be
stat'ed, `_pick_latest_backup` (restore module) returns the same file as
`quick_latest_selector` (selector module), including on modification-time
ties, where both return the first maximal file in enumeration order. -/
theorem pick_latest_agrees :
    ∀ d : Directory, (∀ e ∈ d.entries, isBackupFile e = true → e.stat.isSome) →
      _pick_latest_backup d = Except.ok (quick_latest_selector d) := by
  intro d hstat
  by_cases hex : d.dirExists = true
  · have hall : ∀ e ∈ d.entries.filter isBackupFile, e.stat.isSome := by
      intro e he
      have hm := List.mem_filter.mp he
      exact hstat e hm.1 hm.2
    have hg := get_backup_files_eq d hex hall
    have hquick : quick_latest_selector d =
        (((d.entries.filter isBackupFile).map entryTriple).mergeSort newerFirst).head?.map
          (fun x => x.1) := by
      unfold quick_latest_selector
      rw [hg]
      cases hm : ((d.entries.filter isBackupFile).map entryTriple).mergeSort newerFirst with
      | nil => rfl
      | cons x xs => rfl
    have hpick : _pick_latest_backup d =
        (if (d.entries.filter isBackupFile).isEmpty then Except.ok none
          else
            match maxByMtime (d.entries.filter isBackupFile) with
            | some e => Except.ok (some e.name)
            | none => Except.error ()) := by
      unfold _pick_latest_backup
      rw [hex]
      rfl
    rw [hpick, hquick, head_mergeSort_newerFirst,
      firstMaxBy_map entryKey (fun x => x.2.1) entryTriple (fun a => rfl),
      maxByMtime_eq_firstMaxBy _ hall]
    cases hc : d.entries.filter isBackupFile with
    | nil => rfl
    | cons e rest =>
      rw [if_neg (by simp), firstMaxBy_cons]
      rfl
  · have hex' : d.dirExists = false := by simpa using hex
    unfold _pick_latest_backup quick_latest_selector
    rw [get_backup_files_nonexistent d hex', hex']
    rfl

/-- Claim C9 witness: agreement evaluated on a concrete directory with a
modification-time tie. -/
theorem pick_latest_agrees_witness :
    _pick_latest_backup tieDir = Except.ok (quick_latest_selector tieDir) :=
  pick_latest_agrees tieDir (by decide)

end Koggi
